import Mathlib

/- Verification of the analytic helper functions of the etl_exercise repository
   (src/dags/helpers.py) against its natural-language specification.

   Modelling conventions:
   - A pandas DataFrame of transactions is modelled as an ordered list of Row
     records; Python floats are modelled as rationals.
   - scipy.stats.zscore(xs) computes (x - mean xs) / std xs with the population
     standard deviation std = sqrt var, where var = (sum of (x - mean)^2) / n.
     Since sqrt var is irrational in general, the row mask used by
     remove_outliers_zscore, namely abs ((x - mean) / sqrt var) <= threshold,
     is embedded by the algebraically equivalent condition
       0 <= threshold and (x - mean)^2 <= threshold^2 * var,
     valid whenever var is nonzero.  When var = 0 the scipy z-scores are
     NaN (the division 0 / 0), every comparison NaN <= threshold is False in
     IEEE semantics, and pandas boolean indexing drops every row; the mask is
     therefore embedded as false in that case.
-/

namespace Helpers

/-- One transaction record (one DataFrame row).  The cohort and period fields
model the columns that cohort_retention_analysis writes into its input frame;
they start out as none. -/
structure Row where
  user_id : Nat
  item_category : String
  item_price : ℚ
  quantity : ℚ
  transaction_date : Int
  total_amount : ℚ
  cohort : Option Int := none
  period : Option Int := none
deriving DecidableEq

/-- Mean of a column, as numpy computes it: sum divided by length. -/
def colMean (df : List Row) (col : Row → ℚ) : ℚ :=
  (df.map col).sum / ((df.map col).length : ℚ)

/-- Population variance of a column (ddof 0, the scipy.stats.zscore default). -/
def colVar (df : List Row) (col : Row → ℚ) : ℚ :=
  ((df.map col).map (fun x => (x - colMean df col) ^ 2)).sum / ((df.map col).length : ℚ)

/-- The boolean mask abs (zscore x) <= threshold of remove_outliers_zscore,
with the z-score comparison written multiplicatively (see the file header):
when the variance is 0 the scipy z-scores are NaN and the mask is false. -/
def zscoreKeep (m v thr x : ℚ) : Bool :=
  if v = 0 then false
  else decide (0 ≤ thr) && decide ((x - m) ^ 2 ≤ thr ^ 2 * v)

/-- Embedding of remove_outliers_zscore(df, column, threshold):
z_scores = zscore(df[column]); return df[abs(z_scores) <= threshold]. -/
def remove_outliers_zscore (df : List Row) (col : Row → ℚ) (threshold : ℚ) : List Row :=
  df.filter (fun r => zscoreKeep (colMean df col) (colVar df col) threshold (col r))

theorem zscoreKeep_eq_abs (m v thr x std : ℚ) (h0 : 0 ≤ std) (h1 : std ^ 2 = v)
    (h2 : std ≠ 0) :
    zscoreKeep m v thr x = decide (|(x - m) / std| ≤ thr) := by
  have hpos : 0 < std := lt_of_le_of_ne h0 (Ne.symm h2)
  have hv : v ≠ 0 := by rw [← h1]; exact pow_ne_zero 2 h2
  have hiff : (0 ≤ thr ∧ (x - m) ^ 2 ≤ thr ^ 2 * v) ↔ |(x - m) / std| ≤ thr := by
    rw [← h1, abs_div, abs_of_pos hpos, div_le_iff₀ hpos]
    constructor
    · rintro ⟨hthr, hsq⟩
      nlinarith [sq_abs (x - m), abs_nonneg (x - m), mul_nonneg hthr h0,
        sq_nonneg (|x - m| - thr * std), sq_nonneg (|x - m| + thr * std)]
    · intro h
      have hthr : 0 ≤ thr := by nlinarith [abs_nonneg (x - m)]
      refine ⟨hthr, ?_⟩
      nlinarith [sq_abs (x - m), abs_nonneg (x - m)]
  unfold zscoreKeep
  rw [if_neg hv, ← Bool.decide_and]
  exact decide_eq_decide.mpr hiff

/-- Claim C1: for every input table, column and threshold, whenever the
population standard deviation of the column (any std with std^2 = var,
std > 0) is nonzero, remove_outliers_zscore returns exactly the records whose
standardized score z = (x - mean) / std satisfies abs z <= threshold, with
mean and std computed once over the entire column; and the output is a
sublist of the input (no rows added or mutated). -/
theorem C1_remove_outliers_exact (df : List Row) (col : Row → ℚ) (thr std : ℚ)
    (h0 : 0 ≤ std) (h1 : std ^ 2 = colVar df col) (h2 : std ≠ 0) :
    remove_outliers_zscore df col thr =
      df.filter (fun r => decide (|(col r - colMean df col) / std| ≤ thr)) ∧
    (remove_outliers_zscore df col thr).Sublist df := by
  constructor
  · exact List.filter_congr
      (fun r _ => zscoreKeep_eq_abs (colMean df col) (colVar df col) thr (col r) std h0 h1 h2)
  · exact List.filter_sublist df

/-- Sample table: two rows with item_price 1 and 3, so the column has mean 2
and population variance 1 (standard deviation 1). -/
def dW : List Row :=
  [{ user_id := 1, item_category := "a", item_price := 1, quantity := 1,
     transaction_date := 0, total_amount := 1 },
   { user_id := 2, item_category := "b", item_price := 3, quantity := 1,
     transaction_date := 0, total_amount := 3 }]

theorem colVar_dW : (1 : ℚ) ^ 2 = colVar dW (fun r => r.item_price) := by
  norm_num [colVar, colMean, dW]

theorem C1_remove_outliers_exact_witness :
    (0 : ℚ) ≤ 1 ∧ (1 : ℚ) ^ 2 = colVar dW (fun r => r.item_price) ∧ (1 : ℚ) ≠ 0 ∧
    remove_outliers_zscore dW (fun r => r.item_price) 3 =
      dW.filter (fun r =>
        decide (|(r.item_price - colMean dW (fun s => s.item_price)) / 1| ≤ 3)) :=
  ⟨by norm_num, colVar_dW, by norm_num,
    (C1_remove_outliers_exact dW (fun r => r.item_price) 3 1 (by norm_num) colVar_dW
      (by norm_num)).1⟩

/-- Sample table whose item_price column is constant (standard deviation 0). -/
def dConst : List Row :=
  [{ user_id := 1, item_category := "a", item_price := 5, quantity := 1,
     transaction_date := 0, total_amount := 5 },
   { user_id := 2, item_category := "b", item_price := 5, quantity := 2,
     transaction_date := 0, total_amount := 10 }]

/-- Claim C2 evaluated on the code: on a table whose selected column is
constant (standard deviation 0), remove_outliers_zscore removes EVERY row
(the scipy z-scores are NaN and the mask is false everywhere), while the
claim and the docstring of the function say that no rows are removed. -/
theorem C2_zero_std_removes_all_rows :
    remove_outliers_zscore dConst (fun r => r.item_price) 3 = [] ∧ dConst ≠ [] := by
  have hv : colVar dConst (fun r => r.item_price) = 0 := by
    norm_num [colVar, colMean, dConst]
  refine ⟨?_, by decide⟩
  simp [remove_outliers_zscore, zscoreKeep, hv]

/-- Distinct item categories of the table, in ascending order: pandas
groupby(sort=True) enumerates the groups by ascending key. -/
def categoryKeys (data : List Row) : List String :=
  List.insertionSort (· ≤ ·) ((data.map (fun r => r.item_category)).dedup)

/-- Sum of total_amount over the records of one category. -/
def categoryTotal (data : List Row) (c : String) : ℚ :=
  ((data.filter (fun r => r.item_category == c)).map (fun r => r.total_amount)).sum

/-- Embedding of data.groupby(item_category)[total_amount].sum(): one pair
per distinct category. -/
def category_sales (data : List Row) : List (String × ℚ) :=
  (categoryKeys data).map (fun c => (c, categoryTotal data c))

/-- Ordering used by sort_values(by=total_amount, ascending=False).  The
pandas sort is not stable on ties; the embedding fixes the deterministic
choice of a stable sort of the key-ascending group list.  Every property
proved below is independent of the tie order. -/
def byTotalDesc (a b : String × ℚ) : Prop := b.2 ≤ a.2

instance : DecidableRel byTotalDesc :=
  fun a b => inferInstanceAs (Decidable (b.2 ≤ a.2))

instance : IsTotal (String × ℚ) byTotalDesc :=
  ⟨fun a b => le_total b.2 a.2⟩

instance : IsTrans (String × ℚ) byTotalDesc :=
  ⟨fun _ _ _ hab hbc => le_trans hbc hab⟩

/-- Embedding of DataFrame.head(n): for n >= 0 the first n rows, for
negative n all rows except the last abs n rows (pandas semantics). -/
def pandasHead {α : Type} (n : Int) (l : List α) : List α :=
  if 0 ≤ n then l.take n.toNat else l.take (l.length - (-n).toNat)

/-- Embedding of top_categories(data, top_n): group by category, sum
total_amount, sort descending by the sum, take head(top_n). -/
def top_categories (data : List Row) (top_n : Int) : List (String × ℚ) :=
  pandasHead top_n (List.insertionSort byTotalDesc (category_sales data))

/-- Sample table with two distinct categories. -/
def dCats : List Row :=
  [{ user_id := 1, item_category := "a", item_price := 1, quantity := 1,
     transaction_date := 0, total_amount := 1 },
   { user_id := 2, item_category := "b", item_price := 2, quantity := 1,
     transaction_date := 0, total_amount := 2 }]

/-- Claim C6, counterexample to the statement as written: with two distinct
categories and top_n = -1 the output is NOT empty (pandas head(-1) keeps all
rows but the last), while the claim says top_n <= 0 yields an empty
sequence. -/
theorem C6_cex_negative_top_n : top_categories dCats (-1) ≠ [] := by
  have hk : ((dCats.map (fun r => r.item_category)).dedup).length = 2 := by decide
  have hlen : (top_categories dCats (-1)).length = 1 := by
    rw [top_categories, pandasHead, if_neg (by norm_num), List.length_take,
      List.length_insertionSort, category_sales, List.length_map, categoryKeys,
      List.length_insertionSort, hk]
    decide
  intro h
  rw [h] at hlen
  simp at hlen

/-- Claim C6, amended: top_categories returns a prefix of the per-category
sums sorted in non-increasing order of summed total_amount; every returned
pair is the exact per-category sum; every category left out has a sum at
most that of every returned pair; for top_n >= 0 the length is
min(top_n, distinct category count), and for top_n < 0 pandas head keeps
all but the last abs(top_n) groups. -/
theorem C6_top_categories (data : List Row) (n : Int) :
    List.Sorted byTotalDesc (top_categories data n) ∧
    (∀ x ∈ top_categories data n,
      x.1 ∈ categoryKeys data ∧ x.2 = categoryTotal data x.1) ∧
    (∀ x ∈ top_categories data n, ∀ q ∈ category_sales data,
      q ∉ top_categories data n → q.2 ≤ x.2) ∧
    (0 ≤ n → (top_categories data n).length = min n.toNat (categoryKeys data).length) ∧
    (n < 0 →
      (top_categories data n).length = (categoryKeys data).length - (-n).toNat) := by
  have hsort : List.Sorted byTotalDesc (List.insertionSort byTotalDesc (category_sales data)) :=
    List.sorted_insertionSort byTotalDesc (category_sales data)
  have hperm : List.Perm (List.insertionSort byTotalDesc (category_sales data))
      (category_sales data) :=
    List.perm_insertionSort byTotalDesc (category_sales data)
  have hlen : (List.insertionSort byTotalDesc (category_sales data)).length =
      (categoryKeys data).length := by
    rw [hperm.length_eq, category_sales, List.length_map]
  have htake : ∀ m : Nat, top_categories data n =
      (List.insertionSort byTotalDesc (category_sales data)).take m →
      List.Sorted byTotalDesc (top_categories data n) ∧
      (∀ x ∈ top_categories data n,
        x.1 ∈ categoryKeys data ∧ x.2 = categoryTotal data x.1) ∧
      (∀ x ∈ top_categories data n, ∀ q ∈ category_sales data,
        q ∉ top_categories data n → q.2 ≤ x.2) := by
    intro m hm
    refine ⟨?_, ?_, ?_⟩
    · rw [hm]
      exact List.Pairwise.sublist (List.take_sublist m _) hsort
    · intro x hx
      rw [hm] at hx
      have hx2 : x ∈ category_sales data := hperm.mem_iff.mp (List.mem_of_mem_take hx)
      rcases List.mem_map.mp hx2 with ⟨c, hc, rfl⟩
      exact ⟨hc, rfl⟩
    · intro x hx q hq hqn
      rw [hm] at hx hqn
      have hqS : q ∈ (List.insertionSort byTotalDesc (category_sales data)) :=
        hperm.mem_iff.mpr hq
      rw [← List.take_append_drop m (List.insertionSort byTotalDesc (category_sales data))]
        at hqS
      have hqd : q ∈ (List.insertionSort byTotalDesc (category_sales data)).drop m := by
        rcases List.mem_append.mp hqS with h | h
        · exact absurd h hqn
        · exact h
      have hsp := hsort
      rw [← List.take_append_drop m (List.insertionSort byTotalDesc (category_sales data))]
        at hsp
      exact (List.pairwise_append.mp hsp).2.2 x hx q hqd
  by_cases hn : 0 ≤ n
  · have hm : top_categories data n =
        (List.insertionSort byTotalDesc (category_sales data)).take n.toNat := by
      rw [top_categories, pandasHead, if_pos hn]
    rcases htake n.toNat hm with ⟨h1, h2, h3⟩
    refine ⟨h1, h2, h3, fun _ => ?_, fun hlt => absurd hn (not_le.mpr hlt)⟩
    rw [hm, List.length_take, hlen]
  · have hm : top_categories data n =
        (List.insertionSort byTotalDesc (category_sales data)).take
          ((List.insertionSort byTotalDesc (category_sales data)).length - (-n).toNat) := by
      rw [top_categories, pandasHead, if_neg hn]
    rcases htake _ hm with ⟨h1, h2, h3⟩
    refine ⟨h1, h2, h3, fun hge => absurd hge hn, fun _ => ?_⟩
    rw [hm, List.length_take, hlen, min_eq_left (Nat.sub_le _ _)]

theorem C6_top_categories_witness :
    (0 : Int) ≤ 2 ∧
    (top_categories dCats 2).length = min (Int.toNat 2) (categoryKeys dCats).length :=
  ⟨by norm_num, (C6_top_categories dCats 2).2.2.2.1 (by norm_num)⟩

/-- Distinct user ids of the table, ascending (pandas groupby sorts keys). -/
def distinctUsers (data : List Row) : List Nat :=
  List.insertionSort (· ≤ ·) ((data.map (fun r => r.user_id)).dedup)

/-- Sum of total_amount over the records of one user. -/
def userTotal (data : List Row) (u : Nat) : ℚ :=
  ((data.filter (fun r => r.user_id == u)).map (fun r => r.total_amount)).sum

/-- Embedding of data.groupby(user_id)[total_amount].sum().reset_index():
one (user_id, total) pair per distinct user. -/
def user_spending (data : List Row) : List (Nat × ℚ) :=
  (distinctUsers data).map (fun u => (u, userTotal data u))

/-- Linear interpolation at fractional position h into a list: the core of
pandas Series.quantile(q, interpolation=linear), which reads the sorted
values at floor(h) and ceil(h) for h = q * (n - 1) and interpolates. -/
def interp (s : List ℚ) (h : ℚ) : ℚ :=
  s.getD (Int.toNat ⌊h⌋) 0 +
    (h - (⌊h⌋ : ℚ)) * (s.getD (Int.toNat ⌈h⌉) 0 - s.getD (Int.toNat ⌊h⌋) 0)

/-- Embedding of pandas Series.quantile(q) with the default linear
interpolation.  pandas returns NaN on an empty series; the embedding returns
0 there, a value the claims never rely on (they assume at least one user). -/
def quantile (xs : List ℚ) (q : ℚ) : ℚ :=
  if xs = [] then 0
  else interp (List.insertionSort (· ≤ ·) xs) (q * ((xs.length : ℚ) - 1))

/-- Embedding of the np.select classification of customer_segmentation:
conditions are tested in order, the first true one wins, and the default
value is low_spenders. -/
def selectSegment (t lo hi : ℚ) : String :=
  if t ≤ lo then "low_spenders"
  else if lo < t ∧ t ≤ hi then "medium_spenders"
  else if hi < t then "high_spenders"
  else "low_spenders"

/-- One output record of customer_segmentation. -/
structure SegRow where
  user_id : Nat
  total_amount : ℚ
  segment : String
deriving DecidableEq

/-- The low_threshold of customer_segmentation: the 0.33 quantile of the
per-user totals. -/
def lowThreshold (data : List Row) : ℚ :=
  quantile ((user_spending data).map (fun p => p.2)) (33 / 100)

/-- The high_threshold of customer_segmentation: the 0.66 quantile of the
per-user totals. -/
def highThreshold (data : List Row) : ℚ :=
  quantile ((user_spending data).map (fun p => p.2)) (66 / 100)

/-- Embedding of customer_segmentation(data): aggregate per user, take the
0.33 and 0.66 quantiles of the per-user totals, classify with np.select. -/
def customer_segmentation (data : List Row) : List SegRow :=
  (user_spending data).map (fun p =>
    { user_id := p.1, total_amount := p.2,
      segment := selectSegment p.2 (lowThreshold data) (highThreshold data) })

theorem getD_sorted_mono {s : List ℚ} (hs : List.Sorted (· ≤ ·) s) {i j : Nat}
    (hij : i ≤ j) (hj : j < s.length) : s.getD i 0 ≤ s.getD j 0 := by
  have hi : i < s.length := lt_of_le_of_lt hij hj
  rw [List.getD_eq_getElem?_getD, List.getD_eq_getElem?_getD,
    List.getElem?_eq_getElem hi, List.getElem?_eq_getElem hj]
  simp only [Option.getD_some]
  rcases lt_or_eq_of_le hij with h | h
  · exact List.pairwise_iff_getElem.mp hs i j hi hj h
  · subst h
    exact le_refl _

theorem interp_between {s : List ℚ} (hs : List.Sorted (· ≤ ·) s) {h : ℚ}
    (h0 : 0 ≤ h) (hub : h ≤ (s.length : ℚ) - 1) :
    s.getD (Int.toNat ⌊h⌋) 0 ≤ interp s h ∧
    interp s h ≤ s.getD (Int.toNat ⌈h⌉) 0 := by
  have hlen : 1 ≤ s.length := by
    by_contra hcon
    have : s.length = 0 := by omega
    rw [this] at hub
    norm_num at hub
    linarith
  have hceil : ⌈h⌉ ≤ (s.length : ℤ) - 1 := by
    rw [Int.ceil_le]
    push_cast
    exact hub
  have hflnn : 0 ≤ ⌊h⌋ := Int.floor_nonneg.mpr h0
  have hflceil : ⌊h⌋ ≤ ⌈h⌉ := by
    have h1 : (⌊h⌋ : ℚ) ≤ h := Int.floor_le h
    have h2 : h ≤ (⌈h⌉ : ℚ) := Int.le_ceil h
    exact_mod_cast le_trans h1 h2
  have hjr : Int.toNat ⌈h⌉ < s.length := by omega
  have hab : s.getD (Int.toNat ⌊h⌋) 0 ≤ s.getD (Int.toNat ⌈h⌉) 0 :=
    getD_sorted_mono hs (by omega) hjr
  have hfr0 : 0 ≤ h - (⌊h⌋ : ℚ) := by
    have := Int.floor_le h
    linarith
  have hfr1 : h - (⌊h⌋ : ℚ) ≤ 1 := by
    have := Int.lt_floor_add_one h
    push_cast at this
    linarith
  constructor
  · unfold interp
    nlinarith [mul_nonneg hfr0 (sub_nonneg.mpr hab)]
  · unfold interp
    nlinarith [sub_nonneg.mpr hab]

theorem interp_mono {s : List ℚ} (hs : List.Sorted (· ≤ ·) s) {h1 h2 : ℚ}
    (h10 : 0 ≤ h1) (h12 : h1 ≤ h2) (hub : h2 ≤ (s.length : ℚ) - 1) :
    interp s h1 ≤ interp s h2 := by
  have hlen : 1 ≤ s.length := by
    by_contra hcon
    have h0 : s.length = 0 := by omega
    rw [h0] at hub
    norm_num at hub
    linarith
  have h20 : 0 ≤ h2 := le_trans h10 h12
  have h1ub : h1 ≤ (s.length : ℚ) - 1 := le_trans h12 hub
  have hceil2 : ⌈h2⌉ ≤ (s.length : ℤ) - 1 := by
    rw [Int.ceil_le]
    push_cast
    exact hub
  have hfl2ceil : ⌊h2⌋ ≤ ⌈h2⌉ := by
    have ha : (⌊h2⌋ : ℚ) ≤ h2 := Int.floor_le h2
    have hb : h2 ≤ (⌈h2⌉ : ℚ) := Int.le_ceil h2
    exact_mod_cast le_trans ha hb
  have hfl1nn : 0 ≤ ⌊h1⌋ := Int.floor_nonneg.mpr h10
  by_cases hc : ⌈h1⌉ ≤ ⌊h2⌋
  · have b1 := (interp_between hs h10 h1ub).2
    have b2 := (interp_between hs h20 hub).1
    have bmid : s.getD (Int.toNat ⌈h1⌉) 0 ≤ s.getD (Int.toNat ⌊h2⌋) 0 :=
      getD_sorted_mono hs (by omega) (by omega)
    linarith
  · push_neg at hc
    have hf12 : ⌊h1⌋ ≤ ⌊h2⌋ := Int.floor_le_floor h12
    have hcf1 : ⌈h1⌉ ≤ ⌊h1⌋ + 1 := Int.ceil_le_floor_add_one h1
    have hfeq : ⌊h2⌋ = ⌊h1⌋ := by omega
    have hlt1 : (⌊h1⌋ : ℚ) < h1 := by
      rcases lt_or_eq_of_le (Int.floor_le h1) with h | h
      · exact h
      · exfalso
        have : ⌈h1⌉ = ⌊h1⌋ := by
          rw [← h, Int.ceil_intCast, Int.floor_intCast]
        omega
    have hceil1 : ⌈h1⌉ = ⌊h1⌋ + 1 := by
      have : ⌊h1⌋ < ⌈h1⌉ := Int.lt_ceil.mpr hlt1
      omega
    have hlt2 : (⌊h1⌋ : ℚ) < h2 := lt_of_lt_of_le hlt1 h12
    have hceil2e : ⌈h2⌉ = ⌊h1⌋ + 1 := by
      have hup : ⌈h2⌉ ≤ ⌊h2⌋ + 1 := Int.ceil_le_floor_add_one h2
      have hdn : ⌊h1⌋ < ⌈h2⌉ := Int.lt_ceil.mpr hlt2
      omega
    have hbr : Int.toNat (⌊h1⌋ + 1) < s.length := by omega
    have hab : s.getD (Int.toNat ⌊h1⌋) 0 ≤ s.getD (Int.toNat (⌊h1⌋ + 1)) 0 :=
      getD_sorted_mono hs (by omega) hbr
    unfold interp
    rw [hceil1, hceil2e, hfeq]
    have hmul := mul_le_mul_of_nonneg_right (sub_le_sub_right h12 ((⌊h1⌋ : ℚ)))
      (sub_nonneg.mpr hab)
    linarith

theorem quantile_mono (xs : List ℚ) {q1 q2 : ℚ} (hq0 : 0 ≤ q1) (hq12 : q1 ≤ q2)
    (hq1 : q2 ≤ 1) : quantile xs q1 ≤ quantile xs q2 := by
  unfold quantile
  by_cases hemp : xs = []
  · rw [if_pos hemp, if_pos hemp]
  · rw [if_neg hemp, if_neg hemp]
    have hs : List.Sorted (· ≤ ·) (List.insertionSort (· ≤ ·) xs) :=
      List.sorted_insertionSort (· ≤ ·) xs
    have hlen : (List.insertionSort (· ≤ ·) xs).length = xs.length :=
      List.length_insertionSort (· ≤ ·) xs
    have hx1 : 1 ≤ xs.length := List.length_pos.mpr hemp
    have hc1 : (1 : ℚ) ≤ (xs.length : ℚ) := by exact_mod_cast hx1
    apply interp_mono hs
    · exact mul_nonneg hq0 (by linarith)
    · exact mul_le_mul_of_nonneg_right hq12 (by linarith)
    · rw [hlen]
      nlinarith

theorem quantile_const (xs : List ℚ) (v : ℚ) (hne : xs ≠ []) (hv : ∀ x ∈ xs, x = v)
    {q : ℚ} (hq0 : 0 ≤ q) (hq1 : q ≤ 1) : quantile xs q = v := by
  unfold quantile
  rw [if_neg hne]
  have hmem : ∀ x ∈ List.insertionSort (· ≤ ·) xs, x = v := fun x hx =>
    hv x ((List.perm_insertionSort (· ≤ ·) xs).mem_iff.mp hx)
  have hlen : (List.insertionSort (· ≤ ·) xs).length = xs.length :=
    List.length_insertionSort (· ≤ ·) xs
  have hx1 : 1 ≤ xs.length := List.length_pos.mpr hne
  have hc1 : (1 : ℚ) ≤ (xs.length : ℚ) := by exact_mod_cast hx1
  set h : ℚ := q * ((xs.length : ℚ) - 1) with hdef
  have h0 : 0 ≤ h := mul_nonneg hq0 (by linarith)
  have hub : h ≤ (xs.length : ℚ) - 1 := by nlinarith
  have hflnn : 0 ≤ ⌊h⌋ := Int.floor_nonneg.mpr h0
  have hceil : ⌈h⌉ ≤ (xs.length : ℤ) - 1 := by
    rw [Int.ceil_le]
    push_cast
    exact hub
  have hfc : ⌊h⌋ ≤ ⌈h⌉ := by
    have ha : (⌊h⌋ : ℚ) ≤ h := Int.floor_le h
    have hb : h ≤ (⌈h⌉ : ℚ) := Int.le_ceil h
    exact_mod_cast le_trans ha hb
  have hget : ∀ i : Nat, i < (List.insertionSort (· ≤ ·) xs).length →
      (List.insertionSort (· ≤ ·) xs).getD i 0 = v := by
    intro i hi
    rw [List.getD_eq_getElem?_getD, List.getElem?_eq_getElem hi]
    exact hmem _ (List.getElem_mem hi)
  unfold interp
  rw [hget (Int.toNat ⌊h⌋) (by omega), hget (Int.toNat ⌈h⌉) (by omega)]
  ring

theorem selectSegment_cases (t lo hi : ℚ) :
    selectSegment t lo hi = "low_spenders" ∨ selectSegment t lo hi = "medium_spenders" ∨
    selectSegment t lo hi = "high_spenders" := by
  unfold selectSegment
  split_ifs <;> simp

theorem selectSegment_spec (t lo hi : ℚ) (hlh : lo ≤ hi) :
    (selectSegment t lo hi = "low_spenders" ↔ t ≤ lo) ∧
    (selectSegment t lo hi = "medium_spenders" ↔ (lo < t ∧ t ≤ hi)) ∧
    (selectSegment t lo hi = "high_spenders" ↔ hi < t) := by
  unfold selectSegment
  split_ifs with hA hB hC
  · exact ⟨iff_of_true rfl hA,
      iff_of_false (by simp) (fun h => absurd hA (not_le.mpr h.1)),
      iff_of_false (by simp) (fun h => absurd hA (not_le.mpr (lt_of_le_of_lt hlh h)))⟩
  · exact ⟨iff_of_false (by simp) hA, iff_of_true rfl hB,
      iff_of_false (by simp) (not_lt.mpr hB.2)⟩
  · exact ⟨iff_of_false (by simp) hA, iff_of_false (by simp) hB, iff_of_true rfl hC⟩
  · exact absurd ⟨not_le.mp hA, not_lt.mp hC⟩ hB

/-- Claim C3: for every non-empty table, customer_segmentation returns one
record per distinct user_id; each total_amount is that user's sum; each
segment is determined by the claimed threshold conditions against the 0.33
and 0.66 quantiles of the per-user totals; and if all user totals are
identical then every user is classified low_spenders. -/
theorem C3_customer_segmentation (data : List Row) (hne : data ≠ []) :
    ((customer_segmentation data).map (fun rec => rec.user_id)).Nodup ∧
    (∀ u : Nat, u ∈ (customer_segmentation data).map (fun rec => rec.user_id) ↔
      u ∈ data.map (fun r => r.user_id)) ∧
    (∀ rec ∈ customer_segmentation data,
      rec.total_amount = userTotal data rec.user_id ∧
      (rec.segment = "low_spenders" ↔ rec.total_amount ≤ lowThreshold data) ∧
      (rec.segment = "medium_spenders" ↔
        (lowThreshold data < rec.total_amount ∧ rec.total_amount ≤ highThreshold data)) ∧
      (rec.segment = "high_spenders" ↔ highThreshold data < rec.total_amount)) ∧
    ((∃ v : ℚ, ∀ rec ∈ customer_segmentation data, rec.total_amount = v) →
      ∀ rec ∈ customer_segmentation data, rec.segment = "low_spenders") := by
  have hmapu : (customer_segmentation data).map (fun rec => rec.user_id) =
      distinctUsers data := by
    simp only [customer_segmentation, user_spending, List.map_map]
    show List.map (fun u : Nat => u) (distinctUsers data) = distinctUsers data
    simp
  refine ⟨?_, ?_, ?_, ?_⟩
  · rw [hmapu]
    exact ((List.perm_insertionSort _ _).nodup_iff).mpr (List.nodup_dedup _)
  · intro u
    rw [hmapu]
    unfold distinctUsers
    rw [(List.perm_insertionSort _ _).mem_iff, List.mem_dedup]
  · intro rec hrec
    obtain ⟨p, hp, rfl⟩ := List.mem_map.mp hrec
    obtain ⟨u, _, rfl⟩ := List.mem_map.mp hp
    have hlh : lowThreshold data ≤ highThreshold data :=
      quantile_mono _ (by norm_num) (by norm_num) (by norm_num)
    have hspec := selectSegment_spec (userTotal data u) (lowThreshold data)
      (highThreshold data) hlh
    exact ⟨rfl, hspec.1, hspec.2.1, hspec.2.2⟩
  · rintro ⟨v, hv⟩ rec hrec
    have hvv : ∀ x ∈ (user_spending data).map (fun p => p.2), x = v := by
      intro x hx
      obtain ⟨p, hp, rfl⟩ := List.mem_map.mp hx
      exact hv _ (List.mem_map_of_mem _ hp)
    have hnonempty : (user_spending data).map (fun p => p.2) ≠ [] := by
      obtain ⟨r, hr⟩ := List.exists_mem_of_ne_nil data hne
      have hu : r.user_id ∈ distinctUsers data := by
        unfold distinctUsers
        rw [(List.perm_insertionSort _ _).mem_iff, List.mem_dedup]
        exact List.mem_map_of_mem _ hr
      intro hcon
      rw [List.map_eq_nil_iff, user_spending, List.map_eq_nil_iff] at hcon
      rw [hcon] at hu
      exact List.not_mem_nil _ hu
    have hlo : lowThreshold data = v :=
      quantile_const _ v hnonempty hvv (by norm_num) (by norm_num)
    have hhi : highThreshold data = v :=
      quantile_const _ v hnonempty hvv (by norm_num) (by norm_num)
    obtain ⟨p, hp, rfl⟩ := List.mem_map.mp hrec
    have hpt : p.2 = v := hvv p.2 (List.mem_map_of_mem _ hp)
    show selectSegment p.2 (lowThreshold data) (highThreshold data) = "low_spenders"
    rw [hpt, hlo, hhi]
    unfold selectSegment
    rw [if_pos (le_refl v)]

/-- Sample row of a table with a single user. -/
def rSeg : Row :=
  { user_id := 1, item_category := "a", item_price := 10, quantity := 1,
    transaction_date := 0, total_amount := 10 }

/-- Sample table with a single user. -/
def dSeg : List Row := [rSeg]

theorem C3_customer_segmentation_witness :
    ((customer_segmentation dSeg).map (fun rec => rec.user_id)).Nodup ∧
    ((1 : Nat) ∈ (customer_segmentation dSeg).map (fun rec => rec.user_id) ↔
      (1 : Nat) ∈ dSeg.map (fun r => r.user_id)) :=
  ⟨(C3_customer_segmentation dSeg (by decide)).1,
    (C3_customer_segmentation dSeg (by decide)).2.1 1⟩

/-- Claim C8 evaluated on the code: on the empty table (the only table with
zero distinct users) customer_segmentation returns an empty table; it does
not fail, and no InvalidInputError exists anywhere in the repository. -/
theorem C8_cex_empty_table_returns_value : customer_segmentation [] = [] := rfl

/-- Claim C8, amended: for every table with zero distinct users,
customer_segmentation returns an empty output table instead of failing. -/
theorem C8_zero_users_empty_output (data : List Row)
    (h : (data.map (fun r => r.user_id)).dedup = []) :
    customer_segmentation data = [] := by
  cases data with
  | nil => rfl
  | cons r t =>
    exfalso
    have hmem : r.user_id ∈ (((r :: t).map (fun s => s.user_id)).dedup) :=
      List.mem_dedup.mpr (by simp)
    rw [h] at hmem
    exact List.not_mem_nil _ hmem

theorem C8_zero_users_empty_output_witness :
    (([] : List Row).map (fun r => r.user_id)).dedup = [] ∧
    customer_segmentation [] = [] :=
  ⟨rfl, C8_zero_users_empty_output [] rfl⟩

/-- Claim C10: every record returned by customer_segmentation has one of the
three valid segment strings; the np.select default branch (reachable only
when no condition holds) is low_spenders by definition of selectSegment. -/
theorem C10_segment_always_valid (data : List Row) :
    ∀ rec ∈ customer_segmentation data,
      rec.segment = "low_spenders" ∨ rec.segment = "medium_spenders" ∨
      rec.segment = "high_spenders" := by
  intro rec hrec
  obtain ⟨p, _, rfl⟩ := List.mem_map.mp hrec
  exact selectSegment_cases p.2 (lowThreshold data) (highThreshold data)

theorem C10_segment_always_valid_witness :
    SegRow.segment
      { user_id := 1, total_amount := userTotal dSeg 1,
        segment := selectSegment (userTotal dSeg 1) (lowThreshold dSeg) (highThreshold dSeg) } =
        "low_spenders" ∨
    SegRow.segment
      { user_id := 1, total_amount := userTotal dSeg 1,
        segment := selectSegment (userTotal dSeg 1) (lowThreshold dSeg) (highThreshold dSeg) } =
        "medium_spenders" ∨
    SegRow.segment
      { user_id := 1, total_amount := userTotal dSeg 1,
        segment := selectSegment (userTotal dSeg 1) (lowThreshold dSeg) (highThreshold dSeg) } =
        "high_spenders" := by
  have h1 : (1 : Nat) ∈ distinctUsers dSeg := by decide
  have h2 : ((1 : Nat), userTotal dSeg 1) ∈ user_spending dSeg :=
    List.mem_map_of_mem _ h1
  exact C10_segment_always_valid dSeg _ (List.mem_map_of_mem _ h2)

/-- Dates of all transactions of one user (the user group of the frame). -/
def userDates (data : List Row) (u : Nat) : List Int :=
  (data.filter (fun r => r.user_id == u)).map (fun r => r.transaction_date)

/-- Embedding of groupby(user_id)[transaction_date].transform(min) at row r:
the earliest transaction date of the user of r.  The fold seed is the date of
r itself, which belongs to the group whenever r is in the table, so for every
row of the table this is exactly the group minimum. -/
def minDate (data : List Row) (r : Row) : Int :=
  (userDates data r.user_id).foldr min r.transaction_date

/-- Cohort column value of row r: the calendar bucket of the first
transaction date of the user of r.  tp is the bucketing function
dt.to_period(time_period) mapping a date to its period ordinal; every claim
below holds for an arbitrary bucketing, so it is a parameter. -/
def rowCohort (tp : Int → Int) (data : List Row) (r : Row) : Int :=
  tp (minDate data r)

/-- Period column value of row r: the bucket of its own date minus its
cohort bucket (the .n of the pandas period difference). -/
def rowPeriod (tp : Int → Int) (data : List Row) (r : Row) : Int :=
  tp r.transaction_date - rowCohort tp data r

/-- The in-place mutation cohort_retention_analysis performs on its input
frame: the cohort and period columns are written into every row. -/
def enrich (tp : Int → Int) (data : List Row) : List Row :=
  data.map (fun r =>
    { r with cohort := some (rowCohort tp data r), period := some (rowPeriod tp data r) })

/-- Embedding of groupby([cohort, period, user_id]).size().reset_index():
the distinct (cohort, period, user_id) triples; the size column is not used
downstream except through nunique.  pandas lists the groups sorted by key;
the claims proved below are insensitive to the order of the group list, so
the embedding keeps the dedup enumeration order. -/
def cohortData (tp : Int → Int) (data : List Row) : List (Int × Int × Nat) :=
  (data.map (fun r => (rowCohort tp data r, rowPeriod tp data r, r.user_id))).dedup

/-- nunique of a user-id column. -/
def nunique (l : List Nat) : Nat := l.dedup.length

/-- User column of the cohort_data rows of one cohort (before nunique). -/
def usersOf (tp : Int → Int) (data : List Row) (c : Int) : List Nat :=
  ((cohortData tp data).filter (fun t => t.1 == c)).map (fun t => t.2.2)

/-- User column of the cohort_data rows of one (cohort, period) pair. -/
def usersAt (tp : Int → Int) (data : List Row) (c p : Int) : List Nat :=
  ((cohortData tp data).filter (fun t => t.1 == c && t.2.1 == p)).map (fun t => t.2.2)

/-- cohort_size: number of distinct users of one cohort. -/
def cohortSize (tp : Int → Int) (data : List Row) (c : Int) : Nat :=
  nunique (usersOf tp data c)

/-- retained_users: distinct users of one cohort transacting in one period. -/
def retainedUsers (tp : Int → Int) (data : List Row) (c p : Int) : Nat :=
  nunique (usersAt tp data c p)

/-- The (cohort, period) pairs that occur in the data, one output row each. -/
def cohortPeriodPairs (tp : Int → Int) (data : List Row) : List (Int × Int) :=
  ((cohortData tp data).map (fun t => (t.1, t.2.1))).dedup

/-- One output record of cohort_retention_analysis. -/
structure RetRow where
  cohort : Int
  period : Int
  retained_users : Nat
  cohort_size : Nat
  retention_rate : ℚ
deriving DecidableEq

/-- One output row: the merge of retained_users with cohort_size on the
cohort key, plus the retention_rate column. -/
def mkRetRow (tp : Int → Int) (data : List Row) (cp : Int × Int) : RetRow :=
  { cohort := cp.1, period := cp.2,
    retained_users := retainedUsers tp data cp.1 cp.2,
    cohort_size := cohortSize tp data cp.1,
    retention_rate :=
      (retainedUsers tp data cp.1 cp.2 : ℚ) / (cohortSize tp data cp.1 : ℚ) * 100 }

/-- Embedding of cohort_retention_analysis(data, time_period).  The first
component is the state of the INPUT frame after the call (the function
mutates its argument: it writes the cohort and period columns in place);
the second component is the returned retention table. -/
def cohort_retention_analysis (tp : Int → Int) (data : List Row) :
    List Row × List RetRow :=
  (enrich tp data, (cohortPeriodPairs tp data).map (fun cp => mkRetRow tp data cp))

theorem foldr_min_le_init (l : List Int) (a : Int) : l.foldr min a ≤ a := by
  induction l with
  | nil => exact le_refl a
  | cons x xs ih => exact le_trans (min_le_right x _) ih

theorem foldr_min_le_mem (l : List Int) (a x : Int) (hx : x ∈ l) : l.foldr min a ≤ x := by
  induction l with
  | nil => cases hx
  | cons y ys ih =>
    rcases List.mem_cons.mp hx with rfl | h
    · exact min_le_left x _
    · exact le_trans (min_le_right y _) (ih h)

theorem foldr_min_init_or_mem (l : List Int) (a : Int) :
    l.foldr min a = a ∨ l.foldr min a ∈ l := by
  induction l with
  | nil => exact Or.inl rfl
  | cons y ys ih =>
    rcases le_total y (ys.foldr min a) with h | h
    · rw [List.foldr_cons, min_eq_left h]
      exact Or.inr (List.mem_cons_self y ys)
    · rw [List.foldr_cons, min_eq_right h]
      rcases ih with h1 | h1
      · exact Or.inl h1
      · exact Or.inr (List.mem_cons_of_mem y h1)

theorem mem_userDates {data : List Row} {u : Nat} {d : Int} :
    d ∈ userDates data u ↔ ∃ s ∈ data, s.user_id = u ∧ s.transaction_date = d := by
  unfold userDates
  constructor
  · intro hd
    rcases List.mem_map.mp hd with ⟨s, hs, rfl⟩
    rcases List.mem_filter.mp hs with ⟨hsd, hbeq⟩
    exact ⟨s, hsd, by simpa using hbeq, rfl⟩
  · rintro ⟨s, hs, hu, rfl⟩
    exact List.mem_map_of_mem _ (List.mem_filter.mpr ⟨hs, by simpa using hu⟩)

theorem minDate_le_of_mem {data : List Row} {r s : Row} (hs : s ∈ data)
    (hu : s.user_id = r.user_id) : minDate data r ≤ s.transaction_date :=
  foldr_min_le_mem _ _ _ (mem_userDates.mpr ⟨s, hs, hu, rfl⟩)

theorem minDate_attained {data : List Row} {r : Row} (hr : r ∈ data) :
    ∃ s ∈ data, s.user_id = r.user_id ∧ s.transaction_date = minDate data r := by
  rcases foldr_min_init_or_mem (userDates data r.user_id) r.transaction_date with h | h
  · exact ⟨r, hr, rfl, h.symm⟩
  · rcases mem_userDates.mp h with ⟨s, hs, hu, hd⟩
    exact ⟨s, hs, hu, hd⟩

theorem minDate_congr {data : List Row} {r s : Row} (hr : r ∈ data) (hs : s ∈ data)
    (hu : r.user_id = s.user_id) : minDate data r = minDate data s := by
  apply le_antisymm
  · rcases minDate_attained hs with ⟨t, ht, htu, htd⟩
    rw [← htd]
    exact minDate_le_of_mem ht (htu.trans hu.symm)
  · rcases minDate_attained hr with ⟨t, ht, htu, htd⟩
    rw [← htd]
    exact minDate_le_of_mem ht (htu.trans hu)

theorem exists_period_zero_row (tp : Int → Int) {data : List Row} {r : Row}
    (hr : r ∈ data) :
    ∃ s ∈ data, s.user_id = r.user_id ∧ rowCohort tp data s = rowCohort tp data r ∧
      rowPeriod tp data s = 0 := by
  rcases minDate_attained hr with ⟨s, hs, hu, hd⟩
  have hmm : minDate data s = minDate data r := minDate_congr hs hr hu
  refine ⟨s, hs, hu, ?_, ?_⟩
  · unfold rowCohort
    rw [hmm]
  · unfold rowPeriod rowCohort
    rw [hmm, ← hd, sub_self]

theorem mem_cohortData {tp : Int → Int} {data : List Row} {t : Int × Int × Nat} :
    t ∈ cohortData tp data ↔
    ∃ r ∈ data, (rowCohort tp data r, rowPeriod tp data r, r.user_id) = t := by
  unfold cohortData
  rw [List.mem_dedup, List.mem_map]

theorem mem_usersOf {tp : Int → Int} {data : List Row} {c : Int} {u : Nat} :
    u ∈ usersOf tp data c ↔
    ∃ r ∈ data, rowCohort tp data r = c ∧ r.user_id = u := by
  unfold usersOf
  constructor
  · intro hu
    rcases List.mem_map.mp hu with ⟨t, ht, rfl⟩
    rcases List.mem_filter.mp ht with ⟨htd, hbeq⟩
    rcases mem_cohortData.mp htd with ⟨r, hr, rfl⟩
    exact ⟨r, hr, by simpa using hbeq, rfl⟩
  · rintro ⟨r, hr, hc, rfl⟩
    exact List.mem_map_of_mem _
      (List.mem_filter.mpr ⟨mem_cohortData.mpr ⟨r, hr, rfl⟩, by simpa using hc⟩)

theorem mem_usersAt {tp : Int → Int} {data : List Row} {c p : Int} {u : Nat} :
    u ∈ usersAt tp data c p ↔
    ∃ r ∈ data, rowCohort tp data r = c ∧ rowPeriod tp data r = p ∧ r.user_id = u := by
  unfold usersAt
  constructor
  · intro hu
    rcases List.mem_map.mp hu with ⟨t, ht, rfl⟩
    rcases List.mem_filter.mp ht with ⟨htd, hbeq⟩
    rcases mem_cohortData.mp htd with ⟨r, hr, rfl⟩
    simp only [Bool.and_eq_true, beq_iff_eq] at hbeq
    exact ⟨r, hr, hbeq.1, hbeq.2, rfl⟩
  · rintro ⟨r, hr, hc, hp, rfl⟩
    refine List.mem_map_of_mem _
      (List.mem_filter.mpr ⟨mem_cohortData.mpr ⟨r, hr, rfl⟩, ?_⟩)
    simp [hc, hp]

theorem mem_cohortPeriodPairs {tp : Int → Int} {data : List Row} {cp : Int × Int} :
    cp ∈ cohortPeriodPairs tp data ↔
    ∃ r ∈ data, rowCohort tp data r = cp.1 ∧ rowPeriod tp data r = cp.2 := by
  unfold cohortPeriodPairs
  rw [List.mem_dedup, List.mem_map]
  constructor
  · rintro ⟨t, ht, rfl⟩
    rcases mem_cohortData.mp ht with ⟨r, hr, rfl⟩
    exact ⟨r, hr, rfl, rfl⟩
  · rintro ⟨r, hr, hc, hp⟩
    refine ⟨(rowCohort tp data r, rowPeriod tp data r, r.user_id),
      mem_cohortData.mpr ⟨r, hr, rfl⟩, ?_⟩
    simp only []
    rw [Prod.ext_iff]
    exact ⟨hc, hp⟩

theorem nunique_le_of_subset {l₁ l₂ : List Nat} (h : ∀ u ∈ l₁, u ∈ l₂) :
    nunique l₁ ≤ nunique l₂ :=
  List.Subperm.length_le
    (List.subperm_of_subset (List.nodup_dedup l₁)
      (fun x hx => List.mem_dedup.mpr (h x (List.mem_dedup.mp hx))))

theorem nunique_congr {l₁ l₂ : List Nat} (h : ∀ u, u ∈ l₁ ↔ u ∈ l₂) :
    nunique l₁ = nunique l₂ :=
  le_antisymm (nunique_le_of_subset (fun u hu => (h u).mp hu))
    (nunique_le_of_subset (fun u hu => (h u).mpr hu))

theorem nunique_pos {l : List Nat} {a : Nat} (ha : a ∈ l) : 0 < nunique l :=
  List.length_pos.mpr (List.ne_nil_of_mem (List.mem_dedup.mpr ha))

theorem retained_zero_eq_size (tp : Int → Int) (data : List Row) (c : Int) :
    retainedUsers tp data c 0 = cohortSize tp data c := by
  unfold retainedUsers cohortSize
  apply nunique_congr
  intro u
  rw [mem_usersAt, mem_usersOf]
  constructor
  · rintro ⟨r, hr, hc, _, hu⟩
    exact ⟨r, hr, hc, hu⟩
  · rintro ⟨r, hr, hc, hu⟩
    rcases exists_period_zero_row tp hr with ⟨s, hs, hsu, hsc, hsp⟩
    exact ⟨s, hs, hsc.trans hc, hsp, hsu.trans hu⟩

theorem retained_le_size (tp : Int → Int) (data : List Row) (c p : Int) :
    retainedUsers tp data c p ≤ cohortSize tp data c := by
  unfold retainedUsers cohortSize
  apply nunique_le_of_subset
  intro u hu
  rcases mem_usersAt.mp hu with ⟨r, hr, hc, _, hu2⟩
  exact mem_usersOf.mpr ⟨r, hr, hc, hu2⟩

theorem cohortSize_pos (tp : Int → Int) {data : List Row} {c : Int}
    (h : ∃ r ∈ data, rowCohort tp data r = c) : 0 < cohortSize tp data c := by
  rcases h with ⟨r, hr, hc⟩
  exact nunique_pos (mem_usersOf.mpr ⟨r, hr, hc, rfl⟩)

/-- Claim C4: in the output of cohort_retention_analysis, every cohort that
appears has a period-0 record whose retained_users equals that cohort's
cohort_size, and the retention_rate of every period-0 record is 100. -/
theorem C4_period_zero_full_retention (tp : Int → Int) (data : List Row) :
    (∀ rec ∈ (cohort_retention_analysis tp data).2,
      ∃ rec0 ∈ (cohort_retention_analysis tp data).2,
        rec0.cohort = rec.cohort ∧ rec0.period = 0 ∧
        rec0.retained_users = rec0.cohort_size) ∧
    (∀ rec ∈ (cohort_retention_analysis tp data).2,
      rec.period = 0 → rec.retention_rate = 100) := by
  constructor
  · intro rec hrec
    rcases List.mem_map.mp hrec with ⟨cp, hcp, rfl⟩
    rcases mem_cohortPeriodPairs.mp hcp with ⟨r, hr, hc, _⟩
    rcases exists_period_zero_row tp hr with ⟨s, hs, _, hsc, hsp⟩
    have hcp0 : ((cp.1, (0 : Int)) : Int × Int) ∈ cohortPeriodPairs tp data :=
      mem_cohortPeriodPairs.mpr ⟨s, hs, hsc.trans hc, hsp⟩
    refine ⟨mkRetRow tp data (cp.1, 0), List.mem_map_of_mem _ hcp0, rfl, rfl, ?_⟩
    show retainedUsers tp data cp.1 0 = cohortSize tp data cp.1
    exact retained_zero_eq_size tp data cp.1
  · intro rec hrec h0
    rcases List.mem_map.mp hrec with ⟨cp, hcp, rfl⟩
    rcases mem_cohortPeriodPairs.mp hcp with ⟨r, hr, hc, _⟩
    have hp0 : cp.2 = 0 := h0
    have hcs : 0 < cohortSize tp data cp.1 := cohortSize_pos tp ⟨r, hr, hc⟩
    show (retainedUsers tp data cp.1 cp.2 : ℚ) / (cohortSize tp data cp.1 : ℚ) * 100 = 100
    rw [hp0, retained_zero_eq_size tp data cp.1,
      div_self (Nat.cast_ne_zero.mpr (Nat.pos_iff_ne_zero.mp hcs)), one_mul]

theorem C4_period_zero_full_retention_witness :
    mkRetRow (fun z => z) dSeg (0, 0) ∈ (cohort_retention_analysis (fun z => z) dSeg).2 ∧
    (mkRetRow (fun z => z) dSeg (0, 0)).retention_rate = 100 := by
  have hp : (((0 : Int), (0 : Int)) : Int × Int) ∈ cohortPeriodPairs (fun z => z) dSeg := by
    decide
  have hm : mkRetRow (fun z => z) dSeg (0, 0) ∈
      (cohort_retention_analysis (fun z => z) dSeg).2 :=
    List.mem_map_of_mem _ hp
  exact ⟨hm, (C4_period_zero_full_retention (fun z => z) dSeg).2 _ hm rfl⟩

/-- Claim C7: every output record of cohort_retention_analysis has a
retention_rate between 0 and 100, equal to retained_users / cohort_size
times 100, and the cohort_size of every record is positive. -/
theorem C7_retention_rate_in_range (tp : Int → Int) (data : List Row) :
    ∀ rec ∈ (cohort_retention_analysis tp data).2,
      0 ≤ rec.retention_rate ∧ rec.retention_rate ≤ 100 ∧
      rec.retention_rate = (rec.retained_users : ℚ) / (rec.cohort_size : ℚ) * 100 ∧
      0 < rec.cohort_size := by
  intro rec hrec
  rcases List.mem_map.mp hrec with ⟨cp, hcp, rfl⟩
  rcases mem_cohortPeriodPairs.mp hcp with ⟨r, hr, hc, _⟩
  have hcs : 0 < cohortSize tp data cp.1 := cohortSize_pos tp ⟨r, hr, hc⟩
  have hle : retainedUsers tp data cp.1 cp.2 ≤ cohortSize tp data cp.1 :=
    retained_le_size tp data cp.1 cp.2
  have hcsq : (0 : ℚ) < (cohortSize tp data cp.1 : ℚ) := by exact_mod_cast hcs
  refine ⟨?_, ?_, rfl, hcs⟩
  · exact mul_nonneg (div_nonneg (Nat.cast_nonneg _) hcsq.le) (by norm_num)
  · have h1 : (retainedUsers tp data cp.1 cp.2 : ℚ) / (cohortSize tp data cp.1 : ℚ) ≤ 1 :=
      (div_le_one hcsq).mpr (by exact_mod_cast hle)
    calc (retainedUsers tp data cp.1 cp.2 : ℚ) / (cohortSize tp data cp.1 : ℚ) * 100
        ≤ 1 * 100 := mul_le_mul_of_nonneg_right h1 (by norm_num)
      _ = 100 := one_mul 100

theorem C7_retention_rate_in_range_witness :
    0 ≤ (mkRetRow (fun z => z) dSeg (0, 0)).retention_rate ∧
    (mkRetRow (fun z => z) dSeg (0, 0)).retention_rate ≤ 100 := by
  have hp : (((0 : Int), (0 : Int)) : Int × Int) ∈ cohortPeriodPairs (fun z => z) dSeg := by
    decide
  have hm : mkRetRow (fun z => z) dSeg (0, 0) ∈
      (cohort_retention_analysis (fun z => z) dSeg).2 :=
    List.mem_map_of_mem _ hp
  exact ⟨(C7_retention_rate_in_range (fun z => z) dSeg _ hm).1,
    (C7_retention_rate_in_range (fun z => z) dSeg _ hm).2.1⟩

/-- Claim C5, counterexample: cohort_retention_analysis mutates its input
frame.  After the call the input table carries cohort and period columns,
so the post-call state of the input differs from the input. -/
theorem C5_cex_input_mutated :
    (cohort_retention_analysis (fun z => z) dSeg).1 ≠ dSeg := by decide

/-- Claim C5, amended: remove_outliers_zscore, top_categories and
customer_segmentation are pure functions of their input (they are modelled
without any state channel), but cohort_retention_analysis mutates its input
frame: after the call every row of the input carries cohort and period
values, so whenever some input row lacks them the input is changed. -/
theorem C5_cohort_mutates_input (tp : Int → Int) (data : List Row) :
    (∀ r ∈ (cohort_retention_analysis tp data).1, r.cohort ≠ none ∧ r.period ≠ none) ∧
    ((∃ r ∈ data, r.cohort = none) → (cohort_retention_analysis tp data).1 ≠ data) := by
  have h1 : ∀ r ∈ (cohort_retention_analysis tp data).1,
      r.cohort ≠ none ∧ r.period ≠ none := by
    intro r hr
    rcases List.mem_map.mp hr with ⟨s, _, rfl⟩
    exact ⟨Option.some_ne_none _, Option.some_ne_none _⟩
  refine ⟨h1, ?_⟩
  rintro ⟨r, hr, hnone⟩ heq
  have hr2 : r ∈ (cohort_retention_analysis tp data).1 := by rw [heq]; exact hr
  exact (h1 r hr2).1 hnone

theorem C5_cohort_mutates_input_witness :
    (∃ r ∈ dSeg, r.cohort = none) ∧
    (cohort_retention_analysis (fun z => z) dSeg).1 ≠ dSeg :=
  ⟨⟨rSeg, List.mem_cons_self rSeg [], rfl⟩,
    (C5_cohort_mutates_input (fun z => z) dSeg).2 ⟨rSeg, List.mem_cons_self rSeg [], rfl⟩⟩

theorem filter_key_singleton {α β : Type} [DecidableEq β] (f : α → β) {l : List α}
    (hnd : (l.map f).Nodup) {a : α} (ha : a ∈ l) {b : β} (hb : f a = b) :
    l.filter (fun x => f x == b) = [a] := by
  subst hb
  induction l with
  | nil => cases ha
  | cons y ys ih =>
    rw [List.map_cons, List.nodup_cons] at hnd
    rcases List.mem_cons.mp ha with rfl | hmem
    · rw [List.filter_cons_of_pos (by simp)]
      have hnil : ys.filter (fun x => f x == f a) = [] := by
        rw [List.filter_eq_nil_iff]
        intro x hx hbeq
        rw [beq_iff_eq] at hbeq
        exact hnd.1 (hbeq ▸ List.mem_map_of_mem f hx)
      rw [hnil]
    · have hne : (f y == f a) = false := by
        rw [beq_eq_false_iff_ne]
        intro heq
        exact hnd.1 (heq ▸ List.mem_map_of_mem f hmem)
      rw [List.filter_cons_of_neg (by simp [hne])]
      exact ih hnd.2 hmem

theorem minDate_of_unique_users {data : List Row}
    (hu : (data.map (fun r => r.user_id)).Nodup) {r : Row} (hr : r ∈ data) :
    minDate data r = r.transaction_date := by
  have hf : data.filter (fun s => s.user_id == r.user_id) = [r] :=
    filter_key_singleton (fun s => s.user_id) hu hr rfl
  unfold minDate userDates
  rw [hf]
  simp

theorem rowPeriod_of_unique_users (tp : Int → Int) {data : List Row}
    (hu : (data.map (fun r => r.user_id)).Nodup) {r : Row} (hr : r ∈ data) :
    rowCohort tp data r = tp r.transaction_date ∧ rowPeriod tp data r = 0 := by
  unfold rowPeriod rowCohort
  rw [minDate_of_unique_users hu hr]
  exact ⟨rfl, sub_self _⟩

/-- Claim C9, amended: for a table of N users, one transaction each, whose
transaction buckets are pairwise distinct, cohort_retention_analysis yields
N records with N distinct cohorts, each of cohort_size 1, each being a
single period-0 record with retained_users 1 and retention_rate 100.
Without the distinct-bucket hypothesis users launched in the same bucket
share one cohort, refuting the claim as stated. -/
theorem C9_one_transaction_per_user (tp : Int → Int) (data : List Row)
    (hu : (data.map (fun r => r.user_id)).Nodup)
    (hd : (data.map (fun r => tp r.transaction_date)).Nodup) :
    ((cohort_retention_analysis tp data).2.length = data.length) ∧
    (((cohort_retention_analysis tp data).2.map (fun rec => rec.cohort)).Nodup) ∧
    (∀ rec ∈ (cohort_retention_analysis tp data).2,
      rec.period = 0 ∧ rec.cohort_size = 1 ∧ rec.retained_users = 1 ∧
      rec.retention_rate = 100) := by
  have hmap : data.map (fun r => (rowCohort tp data r, rowPeriod tp data r, r.user_id)) =
      data.map (fun r => (tp r.transaction_date, (0 : Int), r.user_id)) := by
    apply List.map_congr_left
    intro r hr
    rcases rowPeriod_of_unique_users tp hu hr with ⟨hc, hp⟩
    rw [hc, hp]
  have hTfst : ((data.map (fun r => (tp r.transaction_date, (0 : Int), r.user_id))).map
      (fun t => t.1)).Nodup := by
    rw [List.map_map]
    exact hd
  have hTnodup : (data.map (fun r => (tp r.transaction_date, (0 : Int), r.user_id))).Nodup :=
    List.Nodup.of_map _ hTfst
  have hcd : cohortData tp data =
      data.map (fun r => (tp r.transaction_date, (0 : Int), r.user_id)) := by
    unfold cohortData
    rw [hmap]
    exact List.dedup_eq_self.mpr hTnodup
  have hPnodup : (data.map (fun r => ((tp r.transaction_date, (0 : Int)) : Int × Int))).Nodup := by
    apply List.Nodup.of_map (fun q : Int × Int => q.1)
    rw [List.map_map]
    exact hd
  have hpairs : cohortPeriodPairs tp data =
      data.map (fun r => ((tp r.transaction_date, (0 : Int)) : Int × Int)) := by
    unfold cohortPeriodPairs
    rw [hcd, List.map_map]
    exact List.dedup_eq_self.mpr hPnodup
  have husers : ∀ r0 ∈ data, usersOf tp data (tp r0.transaction_date) = [r0.user_id] := by
    intro r0 hr0
    unfold usersOf
    rw [hcd]
    have hsingle := filter_key_singleton (fun t : Int × Int × Nat => t.1) hTfst
      (a := (tp r0.transaction_date, (0 : Int), r0.user_id))
      (List.mem_map_of_mem _ hr0) rfl
    rw [hsingle]
    rfl
  have hAt : ∀ r0 ∈ data, usersAt tp data (tp r0.transaction_date) 0 = [r0.user_id] := by
    intro r0 hr0
    unfold usersAt
    rw [hcd]
    have hfcong : (data.map (fun r => (tp r.transaction_date, (0 : Int), r.user_id))).filter
        (fun t => t.1 == tp r0.transaction_date && t.2.1 == 0) =
        (data.map (fun r => (tp r.transaction_date, (0 : Int), r.user_id))).filter
        (fun t => t.1 == tp r0.transaction_date) := by
      apply List.filter_congr
      intro t ht
      rcases List.mem_map.mp ht with ⟨s, _, rfl⟩
      simp
    rw [hfcong]
    have hsingle := filter_key_singleton (fun t : Int × Int × Nat => t.1) hTfst
      (a := (tp r0.transaction_date, (0 : Int), r0.user_id))
      (List.mem_map_of_mem _ hr0) rfl
    rw [hsingle]
    rfl
  refine ⟨?_, ?_, ?_⟩
  · show ((cohortPeriodPairs tp data).map (fun cp => mkRetRow tp data cp)).length = data.length
    rw [List.length_map, hpairs, List.length_map]
  · show (((cohortPeriodPairs tp data).map (fun cp => mkRetRow tp data cp)).map
      (fun rec => rec.cohort)).Nodup
    rw [List.map_map, hpairs, List.map_map]
    show (data.map (fun r => tp r.transaction_date)).Nodup
    exact hd
  · intro rec hrec
    rcases List.mem_map.mp hrec with ⟨cp, hcp, rfl⟩
    rw [hpairs] at hcp
    rcases List.mem_map.mp hcp with ⟨r0, hr0, rfl⟩
    have hsz : cohortSize tp data (tp r0.transaction_date) = 1 := by
      unfold cohortSize
      rw [husers r0 hr0]
      rfl
    have hret : retainedUsers tp data (tp r0.transaction_date) 0 = 1 := by
      unfold retainedUsers
      rw [hAt r0 hr0]
      rfl
    refine ⟨rfl, hsz, hret, ?_⟩
    show (retainedUsers tp data (tp r0.transaction_date) 0 : ℚ) /
        (cohortSize tp data (tp r0.transaction_date) : ℚ) * 100 = 100
    rw [hsz, hret]
    norm_num

/-- Sample rows and table: two users, one transaction each, both in the same
calendar bucket. -/
def rA : Row :=
  { user_id := 1, item_category := "a", item_price := 1, quantity := 1,
    transaction_date := 0, total_amount := 1 }

def rB : Row :=
  { user_id := 2, item_category := "b", item_price := 2, quantity := 1,
    transaction_date := 0, total_amount := 2 }

def dTwoSame : List Row := [rA, rB]

/-- Claim C9, counterexample: two users with one transaction each in the
SAME bucket yield one single cohort of size 2, not two cohorts of size 1. -/
theorem C9_cex_shared_bucket :
    ((cohort_retention_analysis (fun z => z) dTwoSame).2.length = 1) ∧
    ¬ (∀ rec ∈ (cohort_retention_analysis (fun z => z) dTwoSame).2,
        rec.cohort_size = 1) := by
  constructor
  · decide
  · decide

/-- Sample row and table: two users, one transaction each, in distinct
buckets. -/
def rD : Row :=
  { user_id := 2, item_category := "b", item_price := 2, quantity := 1,
    transaction_date := 40, total_amount := 2 }

def dTwoFar : List Row := [rA, rD]

theorem C9_one_transaction_per_user_witness :
    ((dTwoFar.map (fun r => r.user_id)).Nodup) ∧
    ((dTwoFar.map (fun r => (fun z => z) r.transaction_date)).Nodup) ∧
    (cohort_retention_analysis (fun z => z) dTwoFar).2.length = dTwoFar.length ∧
    (((cohort_retention_analysis (fun z => z) dTwoFar).2.map
      (fun rec => rec.cohort)).Nodup) := by
  refine ⟨by decide, by decide, ?_, ?_⟩
  · exact (C9_one_transaction_per_user (fun z => z) dTwoFar (by decide) (by decide)).1
  · exact (C9_one_transaction_per_user (fun z => z) dTwoFar (by decide) (by decide)).2.1

end Helpers
